import Mathlib

/-!
Verification of the 2D vector / kerf-offset utilities of the boxes
repository (file boxes/vectors.py), shallowly embedded over the reals.

Python float arithmetic is modelled by exact real arithmetic.  Operations
that raise a Python exception (float division by an exact zero raises
ZeroDivisionError, math.asin outside the interval from -1 to 1 raises
ValueError) are modelled in the Except monad.  A Python point or vector
(a 2-element list or tuple) is a pair of reals; the matrices handled by
rotm, vtransl and mmul are lists of rows.
-/

/-- The Python exceptions the embedded code can raise. -/
inductive PyErr where
  | zeroDivisionError : PyErr
  | valueError : PyErr
deriving DecidableEq

namespace Boxes

noncomputable section

/-- A 2D point or vector, Python tuple (x, y). -/
abbrev Point := ℝ × ℝ

/-- boxes/vectors.py, normalize: set length of vector to one;
a zero vector is returned unchanged. -/
def normalize (v : Point) : Point :=
  let l := Real.sqrt (v.1 ^ 2 + v.2 ^ 2)
  if l = 0 then (0, 0) else (v.1 / l, v.2 / l)

/-- boxes/vectors.py, vlength: Euclidean norm. -/
def vlength (v : Point) : ℝ :=
  Real.sqrt (v.1 ^ 2 + v.2 ^ 2)

/-- boxes/vectors.py, vclip: rescale to length if longer. -/
def vclip (v : Point) (length : ℝ) : Point :=
  if vlength v > length then (length / vlength v * v.1, length / vlength v * v.2) else v

/-- boxes/vectors.py, vdiff: vector from point1 to point2. -/
def vdiff (p1 p2 : Point) : Point :=
  (p2.1 - p1.1, p2.2 - p1.2)

/-- boxes/vectors.py, vadd: sum of two vectors. -/
def vadd (v1 v2 : Point) : Point :=
  (v1.1 + v2.1, v1.2 + v2.2)

/-- boxes/vectors.py, vorthogonal: orthogonal vector (-y, x). -/
def vorthogonal (v : Point) : Point :=
  (-v.2, v.1)

/-- boxes/vectors.py, vscalmul: scale vector by a. -/
def vscalmul (v : Point) (a : ℝ) : Point :=
  (a * v.1, a * v.2)

/-- boxes/vectors.py, dotproduct. -/
def dotproduct (v1 v2 : Point) : ℝ :=
  v1.1 * v2.1 + v1.2 * v2.2

/-- boxes/vectors.py, circlepoint. -/
def circlepoint (r a : ℝ) : Point :=
  (r * Real.cos a, r * Real.sin a)

/-- Python math.atan2 y x, modelled as the argument of the complex number
x + y*i (both lie in the half-open interval from -pi exclusive to pi, and
both send the origin to 0). -/
def atan2 (y x : ℝ) : ℝ :=
  Complex.arg ⟨x, y⟩

/-- Python float division: raises ZeroDivisionError on an exact zero
denominator. -/
def pydiv (a b : ℝ) : Except PyErr ℝ :=
  if b = 0 then .error .zeroDivisionError else .ok (a / b)

/-- Python math.asin: raises ValueError outside the closed interval
from -1 to 1. -/
def pyasin (t : ℝ) : Except PyErr ℝ :=
  if 1 < |t| then .error .valueError else .ok (Real.arcsin t)

/-- boxes/vectors.py, tangent: angle and length of a tangent from (x, y)
to the circle of radius r around the origin. -/
def tangent (x y r : ℝ) : Except PyErr (ℝ × ℝ) := do
  let l1 := vlength (x, y)
  let a1 := atan2 y x
  let q ← pydiv r l1
  let a2 ← pyasin q
  .ok (a1 + a2, Real.cos a2 * l1)

/-- boxes/vectors.py, rotm: rotation matrix, two rows of three entries. -/
def rotm (angle : ℝ) : List (List ℝ) :=
  [[Real.cos angle, -Real.sin angle, 0],
   [Real.sin angle, Real.cos angle, 0]]

/-- boxes/vectors.py, vtransl: apply an affine 2x3 matrix to a point
given as the list of its coordinates. -/
def vtransl (v : List ℝ) (m : List (List ℝ)) : List ℝ :=
  let m0 := m.getD 0 []
  let m1 := m.getD 1 []
  [m0.getD 0 0 * v.getD 0 0 + m0.getD 1 0 * v.getD 1 0 + m0.getD 2 0,
   m1.getD 0 0 * v.getD 0 0 + m1.getD 1 0 * v.getD 1 0 + m1.getD 2 0]

/-- boxes/vectors.py, mmul: cell (j, i) of the result accumulates
m0[k][i] * m1[j][k] over k below the row count of m0; the result has the
row count of m0 and the column count of its first row. -/
def mmul (m0 m1 : List (List ℝ)) : List (List ℝ) :=
  (List.range m0.length).map fun j =>
    (List.range (m0.getD 0 []).length).map fun i =>
      ((List.range m0.length).map fun k =>
        (m0.getD k []).getD i 0 * (m1.getD j []).getD k 0).sum

/-- Indexing into a point list; Python indexing inside kerf is always
in range (negative indices are pre-wrapped by the caller below), so the
default is never read. -/
def pget (pts : List Point) (i : Nat) : Point :=
  pts.getD i (0, 0)

/-- Body of the loop of boxes/vectors.py, kerf, at index i.  Python
points[i - 1] wraps to the last element when i = 0, hence the index
(i + lp - 1) % lp; points[(i + 1) % lp] is wrapped by the source itself.
The division -k / cos_alpha raises ZeroDivisionError when cos_alpha is
exactly zero. -/
def kerfPoint (pts : List Point) (k : ℝ) (closed : Bool) (i : Nat) :
    Except PyErr Point :=
  let lp := pts.length
  let v1 := vorthogonal (normalize (vdiff (pget pts ((i + lp - 1) % lp)) (pget pts i)))
  let v2 := vorthogonal (normalize (vdiff (pget pts i) (pget pts ((i + 1) % lp))))
  let v1 := if closed = false ∧ i = 0 then v2 else v1
  let v2 := if closed = false ∧ i = lp - 1 then v1 else v2
  let d := normalize (vadd v1 v2)
  let cosAlpha := dotproduct v1 d
  if cosAlpha = 0 then .error .zeroDivisionError
  else .ok (vadd (pget pts i) (vscalmul d (-k / cosAlpha)))

/-- The loop of kerf from index i, running for fuel further iterations,
collecting the results in order; a raised exception aborts the loop. -/
def kerfGo (pts : List Point) (k : ℝ) (closed : Bool) :
    Nat → Nat → Except PyErr (List Point)
  | _, 0 => .ok []
  | i, fuel + 1 => do
    let p ← kerfPoint pts k closed i
    let rest ← kerfGo pts k closed (i + 1) fuel
    .ok (p :: rest)

/-- boxes/vectors.py, kerf: outset points by k. -/
def kerf (pts : List Point) (k : ℝ) (closed : Bool := true) :
    Except PyErr (List Point) :=
  kerfGo pts k closed 0 pts.length

/-- The unit orthogonal of the incoming edge at vertex i, as described by
the specification of kerf (indices modulo the length). -/
def kerfV1 (pts : List Point) (i : Nat) : Point :=
  vorthogonal (normalize (vdiff (pget pts ((i + pts.length - 1) % pts.length)) (pget pts i)))

/-- The unit orthogonal of the outgoing edge at vertex i. -/
def kerfV2 (pts : List Point) (i : Nat) : Point :=
  vorthogonal (normalize (vdiff (pget pts i) (pget pts ((i + 1) % pts.length))))

/-- The bisector direction d = normalize (v1 + v2) at vertex i. -/
def kerfDir (pts : List Point) (i : Nat) : Point :=
  normalize (vadd (kerfV1 pts i) (kerfV2 pts i))

/-- The cosine of half the angle between the segments at vertex i. -/
def cosHalfAngle (pts : List Point) (i : Nat) : ℝ :=
  dotproduct (kerfV1 pts i) (kerfDir pts i)

/-- The displaced vertex the specification of kerf prescribes for the
closed case: points[i] + d * (-k / cosHalfAngle). -/
def kerfSpecPoint (pts : List Point) (k : ℝ) (i : Nat) : Point :=
  vadd (pget pts i) (vscalmul (kerfDir pts i) (-k / cosHalfAngle pts i))

/-! Basic facts about the primitives. -/

theorem sq_add_sq_pos_of_ne (v : Point) (hv : v ≠ (0, 0)) :
    0 < v.1 ^ 2 + v.2 ^ 2 := by
  obtain ⟨x, y⟩ := v
  show 0 < x ^ 2 + y ^ 2
  rcases eq_or_ne x 0 with rfl | hx
  · rcases eq_or_ne y 0 with rfl | hy
    · exact absurd rfl hv
    · have h : 0 < y ^ 2 := by positivity
      nlinarith [sq_nonneg (0 : ℝ)]
  · have h : 0 < x ^ 2 := by positivity
    nlinarith [sq_nonneg y]

theorem vlength_pos (v : Point) (hv : v ≠ (0, 0)) : 0 < vlength v :=
  Real.sqrt_pos.mpr (sq_add_sq_pos_of_ne v hv)

theorem normalize_of_ne (v : Point) (hv : v ≠ (0, 0)) :
    normalize v = (v.1 / vlength v, v.2 / vlength v) := by
  have h := vlength_pos v hv
  simp only [normalize, vlength] at *
  rw [if_neg (by exact ne_of_gt h)]

theorem vlength_sq (v : Point) : vlength v ^ 2 = v.1 ^ 2 + v.2 ^ 2 :=
  Real.sq_sqrt (by positivity)

theorem dot_normalize_self (v : Point) (hv : v ≠ (0, 0)) :
    dotproduct (normalize v) (normalize v) = 1 := by
  have hl := vlength_pos v hv
  have hsq := vlength_sq v
  rw [normalize_of_ne v hv]
  simp only [dotproduct]
  field_simp
  nlinarith [hsq]

theorem normalize_zero : normalize (0, 0) = (0, 0) := by
  simp [normalize]

theorem dot_orthogonal (v w : Point) :
    dotproduct (vorthogonal v) (vorthogonal w) = dotproduct v w := by
  simp only [dotproduct, vorthogonal]
  ring

theorem dot_self_orth_normalize (v : Point) :
    dotproduct v (vorthogonal (normalize v)) = 0 := by
  rcases eq_or_ne v (0, 0) with rfl | hv
  · simp [dotproduct, vorthogonal, normalize_zero]
  · rw [normalize_of_ne v hv]
    simp only [dotproduct, vorthogonal]
    ring

theorem normalize_scal_pos (u : Point) (s : ℝ) (hu : dotproduct u u = 1)
    (hs : 0 < s) : normalize (vscalmul u s) = u := by
  obtain ⟨a, b⟩ := u
  simp only [dotproduct] at hu
  have hab : a ^ 2 + b ^ 2 = 1 := by nlinarith
  simp only [vscalmul, normalize]
  have h1 : (s * a) ^ 2 + (s * b) ^ 2 = s ^ 2 := by nlinarith
  rw [h1, Real.sqrt_sq hs.le, if_neg (by exact ne_of_gt hs)]
  field_simp

theorem orth_decomp (u w : Point) (hu : dotproduct u u = 1)
    (hw : dotproduct w (vorthogonal u) = 0) :
    w = vscalmul u (dotproduct w u) := by
  obtain ⟨a, b⟩ := u
  obtain ⟨x, y⟩ := w
  simp only [dotproduct, vorthogonal, vscalmul] at *
  have h1 : x = (x * a + y * b) * a := by linear_combination (-x) * hu + (-b) * hw
  have h2 : y = (x * a + y * b) * b := by linear_combination (-y) * hu + a * hw
  rw [Prod.mk.injEq]
  exact ⟨h1, h2⟩

/-! Index arithmetic for the cyclic neighbour access of kerf. -/

/-- The index before i, modulo n. -/
def prevIdx (n i : Nat) : Nat := (i + n - 1) % n

theorem prevIdx_lt (n i : Nat) (hn : 1 ≤ n) : prevIdx n i < n :=
  Nat.mod_lt _ (by omega)

theorem next_lt (n i : Nat) (hn : 1 ≤ n) : (i + 1) % n < n :=
  Nat.mod_lt _ (by omega)

theorem prevIdx_next (n i : Nat) (hn : 1 ≤ n) (hi : i < n) :
    (prevIdx n i + 1) % n = i := by
  unfold prevIdx
  rcases Nat.eq_zero_or_pos i with rfl | hpos
  · rw [Nat.zero_add, Nat.mod_eq_of_lt (show n - 1 < n by omega),
      Nat.sub_add_cancel hn, Nat.mod_self]
  · obtain ⟨j, rfl⟩ : ∃ j, i = j + 1 := ⟨i - 1, by omega⟩
    have h1 : j + 1 + n - 1 = j + n := by omega
    rw [h1, Nat.add_mod_right, Nat.mod_eq_of_lt (show j < n by omega),
      Nat.mod_eq_of_lt hi]

theorem next_prevIdx (n i : Nat) (hn : 1 ≤ n) (hi : i < n) :
    prevIdx n ((i + 1) % n) = i := by
  unfold prevIdx
  rcases Nat.lt_or_ge (i + 1) n with h | h
  · rw [Nat.mod_eq_of_lt h]
    have h1 : i + 1 + n - 1 = i + n := by omega
    rw [h1, Nat.add_mod_right, Nat.mod_eq_of_lt hi]
  · have h1 : i + 1 = n := by omega
    rw [h1, Nat.mod_self, Nat.zero_add, Nat.mod_eq_of_lt (show n - 1 < n by omega)]
    omega

/-! The kerf loop evaluated when no iteration raises, and when one does. -/

theorem pyBindOk {α β : Type} (a : α) (f : α → Except PyErr β) :
    (Except.ok a >>= f) = f a := rfl

theorem pyBindError {α β : Type} (e : PyErr) (f : α → Except PyErr β) :
    ((Except.error e : Except PyErr α) >>= f) = Except.error e := rfl

theorem iteOkError {c : Prop} [Decidable c] (x : Point) (e : PyErr)
    (h : (if c then (Except.error PyErr.zeroDivisionError : Except PyErr Point)
      else .ok x) = .error e) :
    e = PyErr.zeroDivisionError := by
  by_cases hc : c
  · rw [if_pos hc] at h; cases h; rfl
  · rw [if_neg hc] at h; cases h

theorem kerfGo_ok (pts : List Point) (k : ℝ) (closed : Bool) (f : Nat → Point)
    (fuel : Nat) :
    ∀ i, (∀ j, i ≤ j → j < i + fuel → kerfPoint pts k closed j = .ok (f j)) →
    kerfGo pts k closed i fuel = .ok ((List.range fuel).map fun t => f (i + t)) := by
  induction fuel with
  | zero => intro i _; rfl
  | succ fuel ih =>
    intro i h
    have h0 : kerfPoint pts k closed i = .ok (f i) := h i le_rfl (by omega)
    have h1 : kerfGo pts k closed (i + 1) fuel =
        .ok ((List.range fuel).map fun t => f (i + 1 + t)) :=
      ih (i + 1) (fun j hj1 hj2 => h j (by omega) (by omega))
    have harg : ∀ t, f (i + 1 + t) = f (i + (t + 1)) := fun t => by
      rw [show i + 1 + t = i + (t + 1) by omega]
    simp only [kerfGo, h0, h1, pyBindOk, List.range_succ_eq_map,
      List.map_cons, List.map_map]
    simp [Function.comp_def, harg, Nat.succ_eq_add_one, Nat.add_zero]

theorem kerfPoint_error_eq (pts : List Point) (k : ℝ) (closed : Bool) (i : Nat)
    (e : PyErr) (h : kerfPoint pts k closed i = .error e) :
    e = PyErr.zeroDivisionError := by
  simp only [kerfPoint] at h
  exact iteOkError _ _ h

theorem kerfGo_error (pts : List Point) (k : ℝ) (closed : Bool) (fuel : Nat) :
    ∀ i j, i ≤ j → j < i + fuel →
    kerfPoint pts k closed j = .error PyErr.zeroDivisionError →
    kerfGo pts k closed i fuel = .error PyErr.zeroDivisionError := by
  induction fuel with
  | zero => intro i j h1 h2 _; omega
  | succ fuel ih =>
    intro i j h1 h2 hj
    cases hcase : kerfPoint pts k closed i with
    | error e =>
      have he := kerfPoint_error_eq pts k closed i e hcase
      subst he
      simp only [kerfGo, hcase, pyBindError]
    | ok p =>
      rcases eq_or_lt_of_le h1 with rfl | hlt
      · rw [hcase] at hj; cases hj
      · have hrest := ih (i + 1) j (by omega) (by omega) hj
        simp only [kerfGo, hcase, pyBindOk, hrest, pyBindError]

/-- For a closed path the loop body is exactly the per-vertex rule of the
specification, guarded by the division by cosHalfAngle. -/
theorem kerfPoint_closed (pts : List Point) (k : ℝ) (i : Nat) :
    kerfPoint pts k true i =
      if cosHalfAngle pts i = 0 then .error PyErr.zeroDivisionError
      else .ok (kerfSpecPoint pts k i) := by
  simp only [kerfPoint, kerfV1, kerfV2, kerfDir, cosHalfAngle, kerfSpecPoint]
  norm_num

theorem getD_map_range (f : Nat → Point) (n j : Nat) (hj : j < n) (d : Point) :
    ((List.range n).map f).getD j d = f j := by
  rw [List.getD_eq_getElem _ _ (by simpa using hj)]
  simp

theorem map_pget_range (pts : List Point) :
    (List.range pts.length).map (pget pts) = pts := by
  apply List.ext_getElem
  · simp
  · intro i h1 h2
    simp only [List.getElem_map, List.getElem_range, pget]
    exact List.getD_eq_getElem pts (0, 0) h2

/-- C1: for a closed path of n points (n at least 1) whose consecutive
edges are non-degenerate and whose bisector cosine is nonzero at every
vertex, kerf returns a list of exactly n points in index-to-index
correspondence with the input, the i-th being
points[i] + d * (-k / cosHalfAngle) with d the normalized sum of the unit
orthogonals of the incoming and outgoing edges, indices modulo n. -/
theorem kerf_closed_pointwise (pts : List Point) (k : ℝ)
    (hn : 1 ≤ pts.length)
    (hnd : ∀ i, i < pts.length →
      vdiff (pget pts i) (pget pts ((i + 1) % pts.length)) ≠ (0, 0))
    (hcos : ∀ i, i < pts.length → cosHalfAngle pts i ≠ 0) :
    ∃ r, kerf pts k true = .ok r ∧ r.length = pts.length ∧
      ∀ i, i < pts.length → pget r i = kerfSpecPoint pts k i := by
  have hpt : ∀ j, 0 ≤ j → j < 0 + pts.length →
      kerfPoint pts k true j = .ok (kerfSpecPoint pts k j) := by
    intro j _ hj
    rw [kerfPoint_closed, if_neg (hcos j (by omega))]
  have hgo := kerfGo_ok pts k true (kerfSpecPoint pts k) pts.length 0 hpt
  refine ⟨_, hgo, by simp, ?_⟩
  intro i hi
  unfold pget
  rw [getD_map_range _ _ _ hi]
  rw [Nat.zero_add]

/-- C1 witness input: the closed unit square. -/
def unitSquare : List Point := [(0, 0), (1, 0), (1, 1), (0, 1)]

theorem sqrt_two_pos : 0 < Real.sqrt 2 := Real.sqrt_pos.mpr (by norm_num)

theorem normalize_of_unit (x y : ℝ) (h : x ^ 2 + y ^ 2 = 1) :
    normalize (x, y) = (x, y) := by
  simp only [normalize]
  norm_num [h]

theorem normalize_of_norm_two (x y : ℝ) (h : x ^ 2 + y ^ 2 = 2) :
    normalize (x, y) = (x / Real.sqrt 2, y / Real.sqrt 2) := by
  simp only [normalize]
  norm_num [h]

/-- C6: normalize returns a vector of Euclidean length one for every
nonzero vector, and maps the zero vector to the zero vector without
raising any error. -/
theorem normalize_unit_or_zero :
    (∀ v : Point, v ≠ (0, 0) → vlength (normalize v) = 1) ∧
    normalize (0, 0) = (0, 0) := by
  refine ⟨fun v hv => ?_, normalize_zero⟩
  have h1 := dot_normalize_self v hv
  simp only [dotproduct] at h1
  unfold vlength
  rw [show (normalize v).1 ^ 2 + (normalize v).2 ^ 2 = 1 by nlinarith]
  exact Real.sqrt_one

/-- C6 witness: the vector (3, 4) is nonzero and normalizes to length 1;
the zero-vector clause is hypothesis-free and restated. -/
theorem normalize_unit_or_zero_witness :
    (((3 : ℝ), (4 : ℝ)) : Point) ≠ (0, 0) ∧
      vlength (normalize ((3 : ℝ), (4 : ℝ))) = 1 := by
  have h : (((3 : ℝ), (4 : ℝ)) : Point) ≠ (0, 0) := by
    intro h
    exact absurd (congrArg Prod.fst h) (by norm_num)
  exact ⟨h, normalize_unit_or_zero.1 (3, 4) h⟩

/-- C8: for a query point strictly inside the circle, tangent raises an
exception (ZeroDivisionError at the centre, ValueError from math.asin
elsewhere); it never returns a clamped finite value. -/
theorem tangent_inside_errors (x y r : ℝ) (h : vlength (x, y) < r) :
    ∃ e, tangent x y r = Except.error e := by
  rcases eq_or_ne (vlength (x, y)) 0 with h0 | h0
  · refine ⟨PyErr.zeroDivisionError, ?_⟩
    simp only [tangent, pydiv, if_pos h0, pyBindError]
  · have hl : 0 < vlength (x, y) :=
      lt_of_le_of_ne (Real.sqrt_nonneg _) (Ne.symm h0)
    have h1 : 1 < r / vlength (x, y) := (one_lt_div hl).mpr h
    refine ⟨PyErr.valueError, ?_⟩
    simp only [tangent, pydiv, if_neg h0, pyBindOk, pyasin]
    rw [if_pos (by rw [abs_of_pos (by linarith)]; exact h1), pyBindError]

/-- C8 witness: the origin is strictly inside the unit circle and tangent
fails there. -/
theorem tangent_inside_errors_witness :
    vlength ((0 : ℝ), (0 : ℝ)) < 1 ∧
      ∃ e, tangent 0 0 1 = Except.error e := by
  have h : vlength ((0 : ℝ), (0 : ℝ)) < 1 := by
    unfold vlength
    norm_num
  exact ⟨h, tangent_inside_errors 0 0 1 h⟩

/-- C9: for a query point exactly on a circle of positive radius, tangent
returns tangent length zero as the second component of its result. -/
theorem tangent_on_circle (x y r : ℝ) (hr : 0 < r) (h : vlength (x, y) = r) :
    ∃ a, tangent x y r = Except.ok (a, 0) := by
  refine ⟨atan2 y x + Real.arcsin 1, ?_⟩
  simp only [tangent, h, pydiv, if_neg (ne_of_gt hr), div_self (ne_of_gt hr),
    pyBindOk, pyasin, if_neg (by norm_num : ¬(1 : ℝ) < |(1 : ℝ)|)]
  rw [Real.arcsin_one, Real.cos_pi_div_two, zero_mul]

/-- C9 witness: the point (1, 0) lies on the unit circle and its tangent
length is zero. -/
theorem tangent_on_circle_witness :
    (0 : ℝ) < 1 ∧ vlength ((1 : ℝ), (0 : ℝ)) = 1 ∧
      ∃ a, tangent 1 0 1 = Except.ok (a, 0) := by
  have h : vlength ((1 : ℝ), (0 : ℝ)) = 1 := by
    unfold vlength
    norm_num
  exact ⟨one_pos, h, tangent_on_circle 1 0 1 one_pos h⟩

/-- A vertex whose incoming edge has length zero makes the loop body of
kerf divide by an exactly zero cosine, for every k and both path kinds
(as long as the boundary rule does not replace the incoming normal,
which can only happen at index 0 of an open path). -/
theorem kerfPoint_zero_incoming (pts : List Point) (k : ℝ) (closed : Bool)
    (i : Nat) (hi0 : ¬(closed = false ∧ i = 0))
    (hdup : pget pts ((i + pts.length - 1) % pts.length) = pget pts i) :
    kerfPoint pts k closed i = .error PyErr.zeroDivisionError := by
  simp only [kerfPoint, hdup]
  have h1 : vdiff (pget pts i) (pget pts i) = (0, 0) := by
    simp [vdiff]
  have h2 : vorthogonal (0, 0) = ((0 : ℝ), (0 : ℝ)) := by
    simp [vorthogonal]
  rw [h1, normalize_zero, h2, if_neg hi0]
  have h3 : ∀ w z : Point,
      dotproduct ((0 : ℝ), (0 : ℝ)) (normalize (vadd (if closed = false ∧ i = pts.length - 1 then ((0 : ℝ), (0 : ℝ)) else w) z)) = 0 := by
    intro w z
    simp [dotproduct]
  rw [if_pos]
  split
  · simp [dotproduct]
  · simp [dotproduct]

/-- C10: a closed path with two cyclically consecutive equal vertices
(including every single-point closed path), and an open path with two
consecutive equal vertices, make kerf raise ZeroDivisionError instead of
returning a path, for every k. -/
theorem kerf_duplicate_vertex_errors (pts : List Point) (k : ℝ) :
    ((∃ j, j < pts.length ∧ pget pts j = pget pts ((j + 1) % pts.length)) →
      kerf pts k true = .error PyErr.zeroDivisionError) ∧
    ((∃ j, j + 1 < pts.length ∧ pget pts j = pget pts (j + 1)) →
      kerf pts k false = .error PyErr.zeroDivisionError) := by
  constructor
  · rintro ⟨j, hj, hdup⟩
    have hn : 1 ≤ pts.length := by omega
    have hidx : ((j + 1) % pts.length + pts.length - 1) % pts.length = j := by
      have := next_prevIdx pts.length j hn hj
      unfold prevIdx at this
      exact this
    have hpt : kerfPoint pts k true ((j + 1) % pts.length) =
        .error PyErr.zeroDivisionError := by
      apply kerfPoint_zero_incoming
      · simp
      · rw [hidx]; exact hdup
    exact kerfGo_error pts k true pts.length 0 ((j + 1) % pts.length)
      (Nat.zero_le _) (by simpa using next_lt pts.length j hn) hpt
  · rintro ⟨j, hj, hdup⟩
    have hn : 1 ≤ pts.length := by omega
    have hidx : (j + 1 + pts.length - 1) % pts.length = j := by
      have h1 : j + 1 + pts.length - 1 = j + pts.length := by omega
      rw [h1, Nat.add_mod_right, Nat.mod_eq_of_lt (by omega)]
    have hpt : kerfPoint pts k false (j + 1) =
        .error PyErr.zeroDivisionError := by
      apply kerfPoint_zero_incoming
      · simp
      · rw [hidx]; exact hdup
    exact kerfGo_error pts k false pts.length 0 (j + 1)
      (Nat.zero_le _) (by omega) hpt

/-- C10 witness input: a path with an interior duplicated vertex. -/
def dupPath : List Point := [(0, 0), (1, 1), (1, 1), (2, 0)]

/-- C10 witness: on the concrete path with vertices 1 and 2 equal, kerf
raises ZeroDivisionError in the closed and the open case. -/
theorem kerf_duplicate_vertex_errors_witness :
    (∃ j, j < dupPath.length ∧ pget dupPath j = pget dupPath ((j + 1) % dupPath.length)) ∧
    (∃ j, j + 1 < dupPath.length ∧ pget dupPath j = pget dupPath (j + 1)) ∧
    kerf dupPath 5 true = .error PyErr.zeroDivisionError ∧
    kerf dupPath 5 false = .error PyErr.zeroDivisionError := by
  have h1 : ∃ j, j < dupPath.length ∧
      pget dupPath j = pget dupPath ((j + 1) % dupPath.length) :=
    ⟨1, by simp [dupPath], rfl⟩
  have h2 : ∃ j, j + 1 < dupPath.length ∧ pget dupPath j = pget dupPath (j + 1) :=
    ⟨1, by simp [dupPath], rfl⟩
  exact ⟨h1, h2, (kerf_duplicate_vertex_errors dupPath 5).1 h1,
    (kerf_duplicate_vertex_errors dupPath 5).2 h2⟩

theorem normalize_eval (x y c : ℝ) (hc : 0 < c) (h : x ^ 2 + y ^ 2 = c ^ 2) :
    normalize (x, y) = (x / c, y / c) := by
  simp only [normalize]
  norm_num [h, Real.sqrt_sq hc.le, hc.ne']

theorem sqrt_two_ne : Real.sqrt 2 ≠ 0 := ne_of_gt sqrt_two_pos

theorem sqrt_two_mul_self : Real.sqrt 2 * Real.sqrt 2 = 2 :=
  Real.mul_self_sqrt (by norm_num)

theorem norm_e10 : normalize ((1 : ℝ), (0 : ℝ)) = (1, 0) :=
  normalize_of_unit 1 0 (by norm_num)

theorem norm_em10 : normalize ((-1 : ℝ), (0 : ℝ)) = (-1, 0) :=
  normalize_of_unit (-1) 0 (by norm_num)

theorem norm_e01 : normalize ((0 : ℝ), (1 : ℝ)) = (0, 1) :=
  normalize_of_unit 0 1 (by norm_num)

theorem norm_e0m1 : normalize ((0 : ℝ), (-1 : ℝ)) = (0, -1) :=
  normalize_of_unit 0 (-1) (by norm_num)

theorem norm_e11 : normalize ((1 : ℝ), (1 : ℝ)) = (1 / Real.sqrt 2, 1 / Real.sqrt 2) := by
  have h := normalize_of_norm_two 1 1 (by norm_num)
  simpa using h

theorem norm_em11 : normalize ((-1 : ℝ), (1 : ℝ)) = (-1 / Real.sqrt 2, 1 / Real.sqrt 2) := by
  have h := normalize_of_norm_two (-1) 1 (by norm_num)
  simpa using h

theorem norm_em1m1 : normalize ((-1 : ℝ), (-1 : ℝ)) = (-1 / Real.sqrt 2, -1 / Real.sqrt 2) := by
  have h := normalize_of_norm_two (-1) (-1) (by norm_num)
  simpa using h

theorem norm_e1m1 : normalize ((1 : ℝ), (-1 : ℝ)) = (1 / Real.sqrt 2, -1 / Real.sqrt 2) := by
  have h := normalize_of_norm_two 1 (-1) (by norm_num)
  simpa using h

theorem norm_e02 : normalize ((0 : ℝ), (2 : ℝ)) = (0, 1) := by
  have h := normalize_eval 0 2 2 (by norm_num) (by norm_num)
  simpa using h

/-- The kerf output prescribed for the closed unit square at k = 1/10. -/
def sqOut : List Point :=
  [(-(1/10), -(1/10)), (11/10, -(1/10)), (11/10, 11/10), (-(1/10), 11/10)]

theorem kerf_unitSquare_eval : kerf unitSquare (1/10) true = .ok sqOut := by
  have hp : ∀ j, 0 ≤ j → j < 0 + unitSquare.length →
      kerfPoint unitSquare (1/10) true j = .ok (pget sqOut j) := by
    intro j _ hj
    have hj4 : j < 4 := by simpa [unitSquare] using hj
    interval_cases j
    · simp only [kerfPoint, unitSquare]
      norm_num [pget, sqOut, vdiff, vadd, vorthogonal, vscalmul, dotproduct,
        norm_e0m1, norm_e10, norm_e11, sqrt_two_ne, -Prod.mk_one_one]
    · simp only [kerfPoint, unitSquare]
      norm_num [pget, sqOut, vdiff, vadd, vorthogonal, vscalmul, dotproduct,
        norm_e10, norm_e01, norm_em11, sqrt_two_ne, -Prod.mk_one_one]
      field_simp
      ring
    · simp only [kerfPoint, unitSquare]
      norm_num [pget, sqOut, vdiff, vadd, vorthogonal, vscalmul, dotproduct,
        norm_e01, norm_em10, norm_em1m1, sqrt_two_ne, -Prod.mk_one_one]
    · simp only [kerfPoint, unitSquare]
      norm_num [pget, sqOut, vdiff, vadd, vorthogonal, vscalmul, dotproduct,
        norm_em10, norm_e0m1, norm_e1m1, sqrt_two_ne, -Prod.mk_one_one]
      field_simp
      ring
  have hgo := kerfGo_ok unitSquare (1/10) true (pget sqOut) unitSquare.length 0 hp
  show kerfGo unitSquare (1/10) true 0 unitSquare.length = .ok sqOut
  rw [hgo]
  rfl

/-- C3: the closed unit square offset by k = 1/10 maps each corner to the
corner displaced along the 45-degree outward diagonal, corner (0,0) to
(-1/10, -1/10), and every corner moves by magnitude (1/10) * sqrt 2. -/
theorem kerf_unit_square :
    kerf unitSquare (1/10) true = .ok sqOut ∧
    ∀ i, i < unitSquare.length →
      vlength (vdiff (pget unitSquare i) (pget sqOut i)) = 1/10 * Real.sqrt 2 := by
  have hmag : ∀ x y : ℝ, x ^ 2 + y ^ 2 = 2/100 →
      vlength (x, y) = 1/10 * Real.sqrt 2 := by
    intro x y h
    show Real.sqrt (x ^ 2 + y ^ 2) = 1/10 * Real.sqrt 2
    rw [h, show (2 : ℝ)/100 = (1/10 * Real.sqrt 2) ^ 2 by
      rw [mul_pow, Real.sq_sqrt (by norm_num : (0:ℝ) ≤ 2)]; norm_num]
    exact Real.sqrt_sq (by positivity)
  refine ⟨kerf_unitSquare_eval, ?_⟩
  intro i hi
  have hi4 : i < 4 := by simpa [unitSquare] using hi
  interval_cases i
  · rw [show vdiff (pget unitSquare 0) (pget sqOut 0) = (-(1/10), -(1/10)) by
      norm_num [unitSquare, sqOut, pget, vdiff]]
    apply hmag; norm_num
  · rw [show vdiff (pget unitSquare 1) (pget sqOut 1) = (1/10, -(1/10)) by
      norm_num [unitSquare, sqOut, pget, vdiff]]
    apply hmag; norm_num
  · rw [show vdiff (pget unitSquare 2) (pget sqOut 2) = (1/10, 1/10) by
      norm_num [unitSquare, sqOut, pget, vdiff]]
    apply hmag; norm_num
  · rw [show vdiff (pget unitSquare 3) (pget sqOut 3) = (-(1/10), 1/10) by
      norm_num [unitSquare, sqOut, pget, vdiff]]
    apply hmag; norm_num

/-- C3 witness: the displacement magnitude clause applied at corner 0. -/
theorem kerf_unit_square_witness :
    0 < unitSquare.length ∧
      vlength (vdiff (pget unitSquare 0) (pget sqOut 0)) = 1/10 * Real.sqrt 2 :=
  ⟨by norm_num [unitSquare], kerf_unit_square.2 0 (by norm_num [unitSquare])⟩

/-- C4: kerf on the open two-point path [(0,0),(1,0)] displaces both
endpoints by exactly k perpendicular to the single edge, with the (-y, x)
orthogonal convention: the output is [(0,-k),(1,-k)]. -/
theorem kerf_open_segment (k : ℝ) :
    kerf [((0 : ℝ), (0 : ℝ)), ((1 : ℝ), (0 : ℝ))] k false =
      .ok [(0, -k), (1, -k)] := by
  have hp0 : kerfPoint [((0 : ℝ), (0 : ℝ)), ((1 : ℝ), (0 : ℝ))] k false 0 =
      .ok (0, -k) := by
    simp only [kerfPoint]
    norm_num [pget, vdiff, vadd, vorthogonal, vscalmul, dotproduct,
      norm_e10, norm_em10, norm_e02, -Prod.mk_one_one, -Prod.mk_zero_zero]
  have hp1 : kerfPoint [((0 : ℝ), (0 : ℝ)), ((1 : ℝ), (0 : ℝ))] k false 1 =
      .ok (1, -k) := by
    simp only [kerfPoint]
    norm_num [pget, vdiff, vadd, vorthogonal, vscalmul, dotproduct,
      norm_e10, norm_em10, norm_e02, -Prod.mk_one_one, -Prod.mk_zero_zero]
  have hp : ∀ j, 0 ≤ j → j < 0 + ([((0 : ℝ), (0 : ℝ)), ((1 : ℝ), (0 : ℝ))] : List Point).length →
      kerfPoint [((0 : ℝ), (0 : ℝ)), ((1 : ℝ), (0 : ℝ))] k false j =
        .ok (pget [((0 : ℝ), -k), ((1 : ℝ), -k)] j) := by
    intro j _ hj
    have hj2 : j < 2 := by simpa using hj
    interval_cases j
    · exact hp0
    · exact hp1
  have hgo := kerfGo_ok [((0 : ℝ), (0 : ℝ)), ((1 : ℝ), (0 : ℝ))] k false
    (pget [((0 : ℝ), -k), ((1 : ℝ), -k)]) _ 0 hp
  show kerfGo [((0 : ℝ), (0 : ℝ)), ((1 : ℝ), (0 : ℝ))] k false 0 _ = _
  rw [hgo]
  rfl

/-- The 180-degree reversal path of concrete scenario 3. -/
def revPath : List Point := [(0, 0), (1, 0), (0, 0)]

/-- On the reversal path the bisector is the zero vector, the cosine is
exactly zero, and the division raises, for every k and both path kinds. -/
theorem kerf_revPath_error (k : ℝ) (closed : Bool) :
    kerf revPath k closed = .error PyErr.zeroDivisionError := by
  cases closed
  · have hp1 : kerfPoint revPath k false 1 = .error PyErr.zeroDivisionError := by
      simp only [kerfPoint, revPath]
      norm_num [pget, vdiff, vadd, vorthogonal, vscalmul, dotproduct,
        norm_e10, norm_em10, normalize_zero, -Prod.mk_one_one, -Prod.mk_zero_zero]
    exact kerfGo_error revPath k false revPath.length 0 1 (by omega)
      (by norm_num [revPath]) hp1
  · have hp0 : kerfPoint revPath k true 0 = .error PyErr.zeroDivisionError := by
      apply kerfPoint_zero_incoming
      · simp
      · rfl
    exact kerfGo_error revPath k true revPath.length 0 0 le_rfl
      (by norm_num [revPath]) hp0

/-- C2 counterexample: on the reversal path kerf does not return a value
at all, refuting the claim that it returns one with a large displacement. -/
theorem kerf_reversal_claim_false :
    ¬ ∃ r, kerf revPath 1 false = Except.ok r := by
  rintro ⟨r, hr⟩
  rw [kerf_revPath_error 1 false] at hr
  cases hr

/-- C2 amended: on the reversal path kerf terminates (it does not loop)
but raises ZeroDivisionError instead of returning a path, because the
bisector cosine at the reversal vertex is exactly zero; this holds for
every k and for both the closed and the open reading of the path. -/
theorem kerf_reversal_raises (k : ℝ) (closed : Bool) :
    kerf revPath k closed = .error PyErr.zeroDivisionError :=
  kerf_revPath_error k closed

/-- C1 witness: the hypotheses and the conclusion instantiated on the
closed unit square with k = 1/10. -/
theorem kerf_closed_pointwise_witness :
    (1 ≤ unitSquare.length) ∧
    (∀ i, i < unitSquare.length →
      vdiff (pget unitSquare i) (pget unitSquare ((i + 1) % unitSquare.length)) ≠ (0, 0)) ∧
    (∀ i, i < unitSquare.length → cosHalfAngle unitSquare i ≠ 0) ∧
    ∃ r, kerf unitSquare (1/10) true = .ok r ∧ r.length = unitSquare.length ∧
      ∀ i, i < unitSquare.length → pget r i = kerfSpecPoint unitSquare (1/10) i := by
  have h1 : 1 ≤ unitSquare.length := by norm_num [unitSquare]
  have h2 : ∀ i, i < unitSquare.length →
      vdiff (pget unitSquare i) (pget unitSquare ((i + 1) % unitSquare.length)) ≠ (0, 0) := by
    intro i hi
    have hi4 : i < 4 := by simpa [unitSquare] using hi
    interval_cases i <;>
      norm_num [unitSquare, pget, vdiff, Prod.ext_iff]
  have h3 : ∀ i, i < unitSquare.length → cosHalfAngle unitSquare i ≠ 0 := by
    intro i hi
    have hi4 : i < 4 := by simpa [unitSquare] using hi
    interval_cases i <;>
      norm_num [cosHalfAngle, kerfV1, kerfV2, kerfDir, unitSquare, pget, vdiff,
        vadd, vorthogonal, dotproduct, norm_e10, norm_em10, norm_e01, norm_e0m1,
        norm_e11, norm_em11, norm_em1m1, norm_e1m1, sqrt_two_ne, -Prod.mk_one_one]
  exact ⟨h1, h2, h3, kerf_closed_pointwise unitSquare (1/10) h1 h2 h3⟩

/-- C7 counterexample: with m0 the 2x3 identity and m1 a pure translation
by (1, 0), applying mmul m0 m1 to the origin gives the origin, while
applying m1 and then m0 gives (1, 0): mmul drops the translation column
of its second argument, so it does not compose the two affine maps. -/
theorem mmul_compose_claim_false :
    vtransl [(0 : ℝ), 0] (mmul [[1, 0, 0], [0, 1, 0]] [[1, 0, 1], [0, 1, 0]]) ≠
      vtransl (vtransl [(0 : ℝ), 0] [[1, 0, 1], [0, 1, 0]]) [[1, 0, 0], [0, 1, 0]] := by
  norm_num [mmul, vtransl, show List.range 2 = [0, 1] from rfl,
    show List.range 3 = [0, 1, 2] from rfl]

/-- The 2x3 matrix with its translation column cleared, keeping only the
linear 2x2 part; used to state what mmul actually computes. -/
def dropTransl (m : List (List ℝ)) : List (List ℝ) :=
  [[(m.getD 0 []).getD 0 0, (m.getD 0 []).getD 1 0, 0],
   [(m.getD 1 []).getD 0 0, (m.getD 1 []).getD 1 0, 0]]

/-- C7 amended: for 2x3 affine matrices m0 and m1 and every point,
applying mmul m0 m1 equals applying m0 first (with its translation) and
then only the linear part of m1 (the translation column of m1 is
dropped); the claimed apply-m1-then-m0 composition law holds only in
special cases such as two pure rotations, whose linear parts commute and
whose translation columns are zero. -/
theorem mmul_vtransl_composition (a b c d e f p q r s t u x y : ℝ) :
    vtransl [x, y] (mmul [[a, b, c], [d, e, f]] [[p, q, r], [s, t, u]]) =
      vtransl (vtransl [x, y] [[a, b, c], [d, e, f]])
        (dropTransl [[p, q, r], [s, t, u]]) := by
  norm_num [mmul, vtransl, dropTransl, show List.range 2 = [0, 1] from rfl,
    show List.range 3 = [0, 1, 2] from rfl]
  constructor <;> ring

/-! The round-trip property of kerf.  On a closed path whose edges are
non-degenerate, whose miter cosines are nonzero and whose edges keep a
positive extent after offsetting (the meaning of a small k), each vertex
moves by the closed-form miter displacement, the offset path has the same
unit edge directions as the input, and offsetting back by -k restores
every vertex exactly. -/

/-- The edge from vertex i to its cyclic successor. -/
def edgeVec (pts : List Point) (i : Nat) : Point :=
  vdiff (pget pts i) (pget pts ((i + 1) % pts.length))

/-- The unit direction of edge i. -/
def edgeDir (pts : List Point) (i : Nat) : Point :=
  normalize (edgeVec pts i)

/-- The unit normal of edge i. -/
def edgeNormal (pts : List Point) (i : Nat) : Point :=
  vorthogonal (edgeDir pts i)

/-- The closed form of the kerf displacement at vertex i of a closed
path: (v1 + v2) scaled by -k / (1 + v1 . v2). -/
def miterDisp (pts : List Point) (k : ℝ) (i : Nat) : Point :=
  vscalmul (vadd (edgeNormal pts (prevIdx pts.length i)) (edgeNormal pts i))
    (-k / (1 + dotproduct (edgeNormal pts (prevIdx pts.length i)) (edgeNormal pts i)))

/-- Vertex i of the kerf output of a closed path. -/
def kerfOut (pts : List Point) (k : ℝ) (i : Nat) : Point :=
  vadd (pget pts i) (miterDisp pts k i)

/-- The kerf output of a closed path as a list. -/
def kerfOutList (pts : List Point) (k : ℝ) : List Point :=
  (List.range pts.length).map (kerfOut pts k)

/-- Edge i of the offset path. -/
def outEdge (pts : List Point) (k : ℝ) (i : Nat) : Point :=
  vdiff (kerfOut pts k i) (kerfOut pts k ((i + 1) % pts.length))

theorem kerfV1_eq (pts : List Point) (i : Nat) (hn : 1 ≤ pts.length)
    (hi : i < pts.length) :
    kerfV1 pts i = edgeNormal pts (prevIdx pts.length i) := by
  unfold kerfV1 edgeNormal edgeDir edgeVec prevIdx
  rw [show ((i + pts.length - 1) % pts.length + 1) % pts.length = i by
    have h := prevIdx_next pts.length i hn hi
    unfold prevIdx at h
    exact h]

theorem kerfV2_eq (pts : List Point) (i : Nat) :
    kerfV2 pts i = edgeNormal pts i := rfl

theorem edgeNormal_unit (pts : List Point) (i : Nat)
    (h : edgeVec pts i ≠ (0, 0)) :
    dotproduct (edgeNormal pts i) (edgeNormal pts i) = 1 := by
  unfold edgeNormal edgeDir
  rw [dot_orthogonal]
  exact dot_normalize_self _ h

theorem miter_eval (w1 w2 : Point) (h1 : dotproduct w1 w1 = 1)
    (h2 : dotproduct w2 w2 = 1) (hc : 1 + dotproduct w1 w2 ≠ 0) (k : ℝ) :
    dotproduct w1 (normalize (vadd w1 w2)) ≠ 0 ∧
    vscalmul (normalize (vadd w1 w2))
        (-k / dotproduct w1 (normalize (vadd w1 w2)))
      = vscalmul (vadd w1 w2) (-k / (1 + dotproduct w1 w2)) := by
  obtain ⟨a, b⟩ := w1
  obtain ⟨p, q⟩ := w2
  have h1s : a * a + b * b = 1 := h1
  have h2s : p * p + q * q = 1 := h2
  have hcs : 1 + (a * p + b * q) ≠ 0 := hc
  have hvadd : vadd (a, b) (p, q) = ((a + p, b + q) : Point) := rfl
  have hss : (a + p) ^ 2 + (b + q) ^ 2 = 2 * (1 + (a * p + b * q)) := by
    linear_combination h1s + h2s
  have h0 : 0 ≤ (a + p) ^ 2 + (b + q) ^ 2 := by positivity
  have hpos : 0 < (a + p) ^ 2 + (b + q) ^ 2 := by
    rcases eq_or_lt_of_le h0 with heq | h
    · exfalso
      apply hcs
      nlinarith [hss]
    · exact h
  have hvne : ((a + p, b + q) : Point) ≠ (0, 0) := by
    intro hz
    rw [Prod.mk.injEq] at hz
    obtain ⟨hz1, hz2⟩ := hz
    rw [hz1, hz2] at hpos
    norm_num at hpos
  have hLpos : 0 < vlength (a + p, b + q) := vlength_pos _ hvne
  have hL0 : vlength ((a + p, b + q) : Point) ≠ 0 := ne_of_gt hLpos
  have hD : dotproduct (a, b) (normalize (vadd (a, b) (p, q))) =
      (1 + (a * p + b * q)) / vlength ((a + p, b + q) : Point) := by
    rw [hvadd, normalize_of_ne _ hvne]
    show a * ((a + p) / vlength ((a + p, b + q) : Point))
        + b * ((b + q) / vlength ((a + p, b + q) : Point))
      = (1 + (a * p + b * q)) / vlength ((a + p, b + q) : Point)
    field_simp
    linear_combination h1s
  refine ⟨by rw [hD]; exact div_ne_zero hcs hL0, ?_⟩
  rw [hD, hvadd, normalize_of_ne _ hvne]
  show ((-k / ((1 + (a * p + b * q)) / vlength ((a + p, b + q) : Point)))
          * ((a + p) / vlength ((a + p, b + q) : Point)),
        (-k / ((1 + (a * p + b * q)) / vlength ((a + p, b + q) : Point)))
          * ((b + q) / vlength ((a + p, b + q) : Point)))
      = ((-k / (1 + (a * p + b * q))) * (a + p),
         (-k / (1 + (a * p + b * q))) * (b + q))
  rw [Prod.mk.injEq]
  constructor
  · field_simp
    ring
  · field_simp
    ring

theorem kerfPoint_formula (pts : List Point) (k : ℝ) (i : Nat) (w1 w2 : Point)
    (hv1 : kerfV1 pts i = w1) (hv2 : kerfV2 pts i = w2)
    (h1 : dotproduct w1 w1 = 1) (h2 : dotproduct w2 w2 = 1)
    (hc : 1 + dotproduct w1 w2 ≠ 0) :
    kerfPoint pts k true i =
      .ok (vadd (pget pts i)
        (vscalmul (vadd w1 w2) (-k / (1 + dotproduct w1 w2)))) := by
  have hme := miter_eval w1 w2 h1 h2 hc k
  rw [kerfPoint_closed]
  have hcos : cosHalfAngle pts i = dotproduct w1 (normalize (vadd w1 w2)) := by
    unfold cosHalfAngle kerfDir
    rw [hv1, hv2]
  rw [if_neg (by rw [hcos]; exact hme.1)]
  unfold kerfSpecPoint
  unfold cosHalfAngle
  unfold kerfDir
  rw [hv1, hv2, hme.2]

theorem kerfPoint_first (pts : List Point) (k : ℝ) (i : Nat)
    (hn : 1 ≤ pts.length) (hi : i < pts.length)
    (hnd : ∀ j, j < pts.length → edgeVec pts j ≠ (0, 0))
    (hc : ∀ j, j < pts.length →
      1 + dotproduct (edgeNormal pts (prevIdx pts.length j)) (edgeNormal pts j) ≠ 0) :
    kerfPoint pts k true i = .ok (kerfOut pts k i) := by
  have h := kerfPoint_formula pts k i
    (edgeNormal pts (prevIdx pts.length i)) (edgeNormal pts i)
    (kerfV1_eq pts i hn hi) rfl
    (edgeNormal_unit pts _ (hnd _ (prevIdx_lt pts.length i hn)))
    (edgeNormal_unit pts i (hnd i hi))
    (hc i hi)
  rw [h]
  rfl

theorem scal_add_dot_right (w1 w2 : Point) (k : ℝ)
    (h2 : dotproduct w2 w2 = 1) (hc : 1 + dotproduct w1 w2 ≠ 0) :
    dotproduct (vscalmul (vadd w1 w2) (-k / (1 + dotproduct w1 w2))) w2 = -k := by
  obtain ⟨a, b⟩ := w1
  obtain ⟨p, q⟩ := w2
  simp only [dotproduct, vadd, vscalmul] at *
  have hfac : (a + p) * p + (b + q) * q = 1 + (a * p + b * q) := by
    linear_combination h2
  rw [show -k / (1 + (a * p + b * q)) * (a + p) * p
        + -k / (1 + (a * p + b * q)) * (b + q) * q
      = -k / (1 + (a * p + b * q)) * ((a + p) * p + (b + q) * q) by ring,
    hfac, div_mul_cancel₀ _ hc]

theorem scal_add_dot_left (w1 w2 : Point) (k : ℝ)
    (h1 : dotproduct w1 w1 = 1) (hc : 1 + dotproduct w1 w2 ≠ 0) :
    dotproduct (vscalmul (vadd w1 w2) (-k / (1 + dotproduct w1 w2))) w1 = -k := by
  obtain ⟨a, b⟩ := w1
  obtain ⟨p, q⟩ := w2
  simp only [dotproduct, vadd, vscalmul] at *
  have hfac : (a + p) * a + (b + q) * b = 1 + (a * p + b * q) := by
    linear_combination h1
  rw [show -k / (1 + (a * p + b * q)) * (a + p) * a
        + -k / (1 + (a * p + b * q)) * (b + q) * b
      = -k / (1 + (a * p + b * q)) * ((a + p) * a + (b + q) * b) by ring,
    hfac, div_mul_cancel₀ _ hc]

theorem outEdge_dot_normal (pts : List Point) (k : ℝ) (i : Nat)
    (hn : 1 ≤ pts.length) (hi : i < pts.length)
    (hnd : ∀ j, j < pts.length → edgeVec pts j ≠ (0, 0))
    (hc : ∀ j, j < pts.length →
      1 + dotproduct (edgeNormal pts (prevIdx pts.length j)) (edgeNormal pts j) ≠ 0) :
    dotproduct (outEdge pts k i) (edgeNormal pts i) = 0 := by
  have hsplit : dotproduct (outEdge pts k i) (edgeNormal pts i) =
      dotproduct (edgeVec pts i) (edgeNormal pts i)
      + dotproduct (miterDisp pts k ((i + 1) % pts.length)) (edgeNormal pts i)
      - dotproduct (miterDisp pts k i) (edgeNormal pts i) := by
    unfold outEdge kerfOut edgeVec
    simp only [dotproduct, vdiff, vadd]
    ring
  have he : dotproduct (edgeVec pts i) (edgeNormal pts i) = 0 :=
    dot_self_orth_normalize (edgeVec pts i)
  have hdi : dotproduct (miterDisp pts k i) (edgeNormal pts i) = -k := by
    unfold miterDisp
    exact scal_add_dot_right _ _ k (edgeNormal_unit pts i (hnd i hi)) (hc i hi)
  have hdn : dotproduct (miterDisp pts k ((i + 1) % pts.length)) (edgeNormal pts i) = -k := by
    have hnx : (i + 1) % pts.length < pts.length := next_lt pts.length i hn
    have hprev : prevIdx pts.length ((i + 1) % pts.length) = i :=
      next_prevIdx pts.length i hn hi
    have hcn := hc _ hnx
    rw [hprev] at hcn
    unfold miterDisp
    rw [hprev]
    exact scal_add_dot_left _ _ k (edgeNormal_unit pts i (hnd i hi)) hcn
  rw [hsplit, he, hdi, hdn]
  ring

theorem outEdge_dir (pts : List Point) (k : ℝ) (i : Nat)
    (hn : 1 ≤ pts.length) (hi : i < pts.length)
    (hnd : ∀ j, j < pts.length → edgeVec pts j ≠ (0, 0))
    (hc : ∀ j, j < pts.length →
      1 + dotproduct (edgeNormal pts (prevIdx pts.length j)) (edgeNormal pts j) ≠ 0)
    (hpos : 0 < dotproduct (outEdge pts k i) (edgeDir pts i)) :
    normalize (outEdge pts k i) = edgeDir pts i := by
  have hu : dotproduct (edgeDir pts i) (edgeDir pts i) = 1 := by
    unfold edgeDir
    exact dot_normalize_self _ (hnd i hi)
  have hw : dotproduct (outEdge pts k i) (vorthogonal (edgeDir pts i)) = 0 :=
    outEdge_dot_normal pts k i hn hi hnd hc
  have hdec := orth_decomp (edgeDir pts i) (outEdge pts k i) hu hw
  rw [hdec]
  exact normalize_scal_pos _ _ hu hpos

theorem kerfPoint_second (pts : List Point) (k : ℝ) (i : Nat)
    (hn : 1 ≤ pts.length) (hi : i < pts.length)
    (hnd : ∀ j, j < pts.length → edgeVec pts j ≠ (0, 0))
    (hc : ∀ j, j < pts.length →
      1 + dotproduct (edgeNormal pts (prevIdx pts.length j)) (edgeNormal pts j) ≠ 0)
    (hpos : ∀ j, j < pts.length → 0 < dotproduct (outEdge pts k j) (edgeDir pts j)) :
    kerfPoint (kerfOutList pts k) (-k) true i = .ok (pget pts i) := by
  have hOlen : (kerfOutList pts k).length = pts.length := by
    simp [kerfOutList]
  have hget : ∀ j, j < pts.length → pget (kerfOutList pts k) j = kerfOut pts k j := by
    intro j hj
    unfold pget kerfOutList
    exact getD_map_range _ _ _ hj _
  have hv1 : kerfV1 (kerfOutList pts k) i = edgeNormal pts (prevIdx pts.length i) := by
    unfold kerfV1
    rw [hOlen]
    rw [show (i + pts.length - 1) % pts.length = prevIdx pts.length i from rfl]
    rw [hget _ (prevIdx_lt pts.length i hn), hget i hi]
    rw [show kerfOut pts k i = kerfOut pts k ((prevIdx pts.length i + 1) % pts.length) by
      rw [prevIdx_next pts.length i hn hi]]
    rw [show vdiff (kerfOut pts k (prevIdx pts.length i))
          (kerfOut pts k ((prevIdx pts.length i + 1) % pts.length))
        = outEdge pts k (prevIdx pts.length i) from rfl]
    rw [outEdge_dir pts k (prevIdx pts.length i) hn (prevIdx_lt pts.length i hn) hnd hc
      (hpos _ (prevIdx_lt pts.length i hn))]
    rfl
  have hv2 : kerfV2 (kerfOutList pts k) i = edgeNormal pts i := by
    unfold kerfV2
    rw [hOlen]
    rw [hget i hi, hget _ (next_lt pts.length i hn)]
    rw [show vdiff (kerfOut pts k i) (kerfOut pts k ((i + 1) % pts.length))
        = outEdge pts k i from rfl]
    rw [outEdge_dir pts k i hn hi hnd hc (hpos i hi)]
    rfl
  have happ := kerfPoint_formula (kerfOutList pts k) (-k) i
    (edgeNormal pts (prevIdx pts.length i)) (edgeNormal pts i)
    hv1 hv2
    (edgeNormal_unit pts _ (hnd _ (prevIdx_lt pts.length i hn)))
    (edgeNormal_unit pts i (hnd i hi))
    (hc i hi)
  rw [happ]
  congr 1
  rw [hget i hi]
  unfold kerfOut miterDisp
  rw [Prod.ext_iff]
  constructor
  · simp only [vadd, vscalmul]
    ring
  · simp only [vadd, vscalmul]
    ring

/-- C5: kerf offset round-trip.  For every closed path with non-degenerate
edges, nonzero miter cosines, and k small enough that every offset edge
keeps a positive extent along its original direction (the precise form of
k being small relative to the minimum edge length and turning angle, as
satisfied by every convex regular polygon with small k), offsetting by k
and then offsetting the result by -k reproduces the original vertex
sequence exactly, in exact real arithmetic. -/
theorem kerf_roundtrip (pts : List Point) (k : ℝ)
    (hn : 1 ≤ pts.length)
    (hnd : ∀ j, j < pts.length → edgeVec pts j ≠ (0, 0))
    (hc : ∀ j, j < pts.length →
      1 + dotproduct (edgeNormal pts (prevIdx pts.length j)) (edgeNormal pts j) ≠ 0)
    (hsmall : ∀ j, j < pts.length → 0 < dotproduct (outEdge pts k j) (edgeDir pts j)) :
    kerf pts k true = .ok (kerfOutList pts k) ∧
    kerf (kerfOutList pts k) (-k) true = .ok pts := by
  have hOlen : (kerfOutList pts k).length = pts.length := by
    simp [kerfOutList]
  constructor
  · have hp : ∀ j, 0 ≤ j → j < 0 + pts.length →
        kerfPoint pts k true j = .ok (kerfOut pts k j) :=
      fun j _ hj => kerfPoint_first pts k j hn (by omega) hnd hc
    have hgo := kerfGo_ok pts k true (kerfOut pts k) pts.length 0 hp
    show kerfGo pts k true 0 pts.length = _
    rw [hgo]
    unfold kerfOutList
    simp
  · have hp : ∀ j, 0 ≤ j → j < 0 + (kerfOutList pts k).length →
        kerfPoint (kerfOutList pts k) (-k) true j = .ok (pget pts j) := by
      intro j _ hj
      rw [hOlen] at hj
      exact kerfPoint_second pts k j hn (by omega) hnd hc hsmall
    have hgo := kerfGo_ok (kerfOutList pts k) (-k) true (pget pts)
      (kerfOutList pts k).length 0 hp
    show kerfGo (kerfOutList pts k) (-k) true 0 (kerfOutList pts k).length = _
    rw [hgo, hOlen]
    have hmap := map_pget_range pts
    simp only [Nat.zero_add]
    rw [hmap]

/-- C5 witness: the hypotheses and the round trip instantiated on the
closed unit square with k = 1/10. -/
theorem kerf_roundtrip_witness :
    (1 ≤ unitSquare.length) ∧
    (∀ j, j < unitSquare.length → edgeVec unitSquare j ≠ (0, 0)) ∧
    (∀ j, j < unitSquare.length →
      1 + dotproduct (edgeNormal unitSquare (prevIdx unitSquare.length j))
        (edgeNormal unitSquare j) ≠ 0) ∧
    (∀ j, j < unitSquare.length →
      0 < dotproduct (outEdge unitSquare (1/10) j) (edgeDir unitSquare j)) ∧
    (kerf unitSquare (1/10) true = .ok (kerfOutList unitSquare (1/10)) ∧
      kerf (kerfOutList unitSquare (1/10)) (-(1/10)) true = .ok unitSquare) := by
  have h1 : 1 ≤ unitSquare.length := by norm_num [unitSquare]
  have h2 : ∀ j, j < unitSquare.length → edgeVec unitSquare j ≠ (0, 0) := by
    intro j hj
    have hj4 : j < 4 := by simpa [unitSquare] using hj
    interval_cases j <;>
      norm_num [edgeVec, unitSquare, pget, vdiff, Prod.ext_iff]
  have h3 : ∀ j, j < unitSquare.length →
      1 + dotproduct (edgeNormal unitSquare (prevIdx unitSquare.length j))
        (edgeNormal unitSquare j) ≠ 0 := by
    intro j hj
    have hj4 : j < 4 := by simpa [unitSquare] using hj
    interval_cases j <;>
      norm_num [edgeNormal, edgeDir, edgeVec, prevIdx, unitSquare, pget, vdiff,
        vorthogonal, dotproduct, norm_e10, norm_em10, norm_e01, norm_e0m1]
  have h4 : ∀ j, j < unitSquare.length →
      0 < dotproduct (outEdge unitSquare (1/10) j) (edgeDir unitSquare j) := by
    intro j hj
    have hj4 : j < 4 := by simpa [unitSquare] using hj
    interval_cases j <;>
      norm_num [outEdge, kerfOut, miterDisp, edgeNormal, edgeDir, edgeVec,
        prevIdx, unitSquare, pget, vdiff, vadd, vorthogonal, vscalmul,
        dotproduct, norm_e10, norm_em10, norm_e01, norm_e0m1,
        -Prod.mk_one_one, -Prod.mk_zero_zero]
  exact ⟨h1, h2, h3, h4, kerf_roundtrip unitSquare (1/10) h1 h2 h3 h4⟩

end

end Boxes
